import Mathlib

set_option maxRecDepth 100000

/-!
Shallow embedding of the protocol engine of `cc_validator_api.go`
(package `cc_validator_api`): request-frame construction, response-frame
parsing, the bounded read-retry loop, the 24-bit bill-type bitmask
encode/decode steps, the CRC-16 checksum, and the per-command payload
decoders (Poll, GetStatus, Identification, GetBillTable).

Bytes are modelled as `Nat` (values < 256); Go's fixed-width unsigned
arithmetic is modelled with explicit `% 2^w`.  Go code that can panic
(index out of range, slicing past the end) is modelled with `Option`,
`none` standing for the panic; slices are modelled as lists with
capacity equal to length.
-/

namespace CCValidator

/-- Go constant `StartCode byte = 0x02`. -/
def StartCode : Nat := 0x02

/-- Go constant `PeripheralAddress byte = 0x03`. -/
def PeripheralAddress : Nat := 0x03

/-- Modulus of Go's `uint` (64-bit) arithmetic. -/
def UintMod : Nat := 2 ^ 64

/-- One round of the inner `for j` loop of `GetCRC16`:
`if TmpCRC&0x0001 > 0 { TmpCRC >>= 1; TmpCRC ^= 0x08408 } else { TmpCRC >>= 1 }`. -/
def crcRound (c : Nat) : Nat :=
  if 0 < c &&& 0x0001 then (c >>> 1) ^^^ 0x8408 else c >>> 1

/-- The inner `for j := 0; j < 8; j++` loop of `GetCRC16`, iterated `j` times. -/
def crcRounds : Nat → Nat → Nat
  | 0, c => c
  | j + 1, c => crcRounds j (crcRound c)

/-- One iteration of the outer loop of `GetCRC16`:
`TmpCRC := CRC ^ uint16(bufData[i])` followed by the 8 inner rounds. -/
def crcByte (c b : Nat) : Nat := crcRounds 8 (c ^^^ b)

/-- Go function `GetCRC16(bufData []byte) uint16` of `cc_validator_api.go`. -/
def GetCRC16 (bufData : List Nat) : Nat := bufData.foldl crcByte 0

/-- One `binary.Write(buf, binary.LittleEndian, <byte value>)`:
appends the byte (values wrap at 256, as in Go's `byte(...)`). -/
def writeByte (buf : List Nat) (b : Nat) : List Nat := buf ++ [b % 256]

/-- One `binary.Write(buf, binary.LittleEndian, <uint16 value>)`:
appends the two bytes little-endian. -/
def writeUint16LE (buf : List Nat) (v : Nat) : List Nat :=
  buf ++ [v % 256, v / 256 % 256]

/-- The frame assembled by `sendRequest(v, commandCode, bytesData ...[]byte)`:
start code, peripheral address, `byte(length)` with
`length = 6 + sum of len(b) for b in bytesData`, the command code, the
payload slices in order, then the CRC-16 over everything so far,
little-endian.  (The serial-port write itself is outside the model.) -/
def sendRequestFrame (commandCode : Nat) (bytesData : List (List Nat)) : List Nat :=
  let length := 6 + (bytesData.map List.length).sum
  let buf := writeByte (writeByte (writeByte (writeByte [] StartCode) PeripheralAddress) length) commandCode
  let buf := bytesData.foldl (fun b data => b ++ data) buf
  let crc := GetCRC16 buf
  writeUint16LE buf crc

/-- Outcome of the validation part of `readResponse` (everything after the
accumulation loop).  `ok none` is the bare-ACK success path that returns
`nil, nil`; `ok (some p)` is the substantive path returning `buf[3:]`. -/
inductive ReadResult where
  | formatErr
  | checksumErr
  | nack
  | illegal
  | ok (payload : Option (List Nat))
deriving DecidableEq, Repr

/-- The validation part of `readResponse(v *CCValidator)`: header check,
checksum check, the three one-byte control cases, and otherwise
`buf = buf[3:]` returned to the caller.  `buf` is the completed
accumulation buffer (the loop guarantees `len(buf) ≥ 6`). -/
def parseResponse (buf : List Nat) : ReadResult :=
  if buf[0]! ≠ StartCode ∨ buf[1]! ≠ PeripheralAddress then .formatErr
  else
    let crc := buf[buf.length - 2]! + 256 * buf[buf.length - 1]!
    let body := buf.take (buf.length - 2)
    if crc ≠ GetCRC16 body then .checksumErr
    else if body.length = 4 ∧ body[3]! = 0x00 then .ok none
    else if body.length = 4 ∧ body[3]! = 0xFF then .nack
    else if body.length = 4 ∧ body[3]! = 0x30 then .illegal
    else .ok (some (body.drop 3))

/-- Go local `maxReadCount := 1050` of `readResponse`. -/
def maxReadCount : Nat := 1050

/-- The accumulation loop of `readResponse`.  `reads k` is the byte chunk
delivered by the `k`-th successful `v.port.Read` call (`innerBuf[:n]`).
Returns the completed buffer (`some buf`, with the number of `Read` calls
performed) or `none` for the `"Reads tries exceeded"` failure.  Mirrors the
Go loop: the counter is incremented and checked against `maxReadCount`
before each read; `totalRead` always equals `len(buf)`. -/
def readLoop (reads : Nat → List Nat) (readTriesCount : Nat) (buf : List Nat) :
    Option (List Nat) × Nat :=
  let t := readTriesCount + 1
  if maxReadCount ≤ t then (none, 0)
  else
    let chunk := reads t
    let buf2 := buf ++ chunk
    if buf2.length < 6 then
      let r := readLoop reads t buf2
      (r.1, r.2 + 1)
    else if buf2[2]! ≠ 0 ∧ buf2[2]! ≠ buf2.length then
      let r := readLoop reads t buf2
      (r.1, r.2 + 1)
    else (some buf2, 1)
termination_by maxReadCount - readTriesCount
decreasing_by all_goals (simp only [maxReadCount] at *; omega)

/-- One iteration of the mask-building loop shared by `SetSecurity` and
`EnableBillTypes`:
`pos := 23 - t; bytes[pos/8] |= 1 << (7 - pos + pos/8*8)`.
`t` is a Go `uint`, so `23 - t` wraps modulo `2^64`; the `|=` target is a
`byte`, so the shifted bit wraps modulo 256.  An index out of the 3-byte
slice is a runtime panic, modelled as `none`. -/
def encStep (bytes : Option (List Nat)) (t : Nat) : Option (List Nat) :=
  match bytes with
  | none => none
  | some bs =>
    let pos := (23 + UintMod - t % UintMod) % UintMod
    if pos / 8 < bs.length then
      let shift := (7 + UintMod - pos % UintMod + pos / 8 * 8) % UintMod
      some (bs.set (pos / 8) (bs[pos / 8]! ||| (1 <<< shift) % 256))
    else none

/-- The full mask-building loop of `EnableBillTypes` / `SetSecurity`,
starting from `[]byte{0, 0, 0}`. -/
def encodeBitset (ts : List Nat) : Option (List Nat) :=
  ts.foldl encStep (some [0, 0, 0])

/-- The inner `for i` loop of the `GetStatus` decoding:
`for i := 0..7 { if v&(1<<i) != 0 { out = append(out, shift+7-i) } }`. -/
def decodeByte (v shift : Nat) (out : List Nat) : List Nat :=
  (List.range 8).foldl
    (fun out i => if v &&& (1 <<< i) ≠ 0 then out ++ [shift + 7 - i] else out) out

/-- The bitmask-decoding loop of `GetStatus`:
`for b, v := range mask { shift := uint(16 - b*8); ... }`.
`16 - b*8` is evaluated as a signed `int` and then converted to `uint`
(wrapping modulo `2^64`). -/
def decodeBitset (mask : List Nat) : List Nat :=
  (List.range mask.length).foldl
    (fun out (b : Nat) => decodeByte mask[b]! (((16 - 8 * (b : ℤ)).emod (UintMod : ℤ)).toNat) out) []

/-- The response decoding of `GetStatus`: the enabled set from
`response[:3]`, the security set from `response[4:]`.  A response shorter
than 4 bytes makes one of the two slicings panic (`none`). -/
def decodeStatus (response : List Nat) : Option (List Nat × List Nat) :=
  if response.length < 4 then none
  else some (decodeBitset (response.take 3), decodeBitset (response.drop 4))

/-- The response decoding of `Poll`: `Status(response[0])` plus
`response[1]` when present (default 0).  `response[0]` on a shorter
(in particular `nil`) response panics (`none`). -/
def decodePoll (response : List Nat) : Option (Nat × Nat) :=
  if response.length = 0 then none
  else some (response[0]!, if 1 < response.length then response[1]! else 0)

/-- Go struct `Identification` of `cc_validator_api.go`. -/
structure Identification where
  PartNumber : List Nat
  SerialNumber : List Nat
  AssetNumber : List Nat
deriving DecidableEq, Repr

/-- The response decoding of the `Identification` command:
`response[:15]`, `response[16:27]`, `response[28:34]`.  A response shorter
than 34 bytes makes one of the slicings panic (`none`). -/
def decodeIdentification (response : List Nat) : Option Identification :=
  if response.length < 34 then none
  else some ⟨response.take 15, (response.drop 16).take 11, (response.drop 28).take 6⟩

/-- Go struct `Bill` with `Denomination float64` and `CountryCode string`.
The denomination is modelled as an exact rational (`float64` arithmetic
idealized); the country code as its 3 raw bytes. -/
structure Bill where
  Denomination : ℚ
  CountryCode : List Nat
deriving DecidableEq, Repr, Inhabited

/-- The body of the `GetBillTable` decoding loop for index `i`:
`first := response[i*5]`, `countryCode := response[i*5+1 : i*5+4]`,
`secondByte := response[i*5+4]`, biased exponent, and
`Denomination = float64(first) * 10^second`. -/
def decodeBillEntry (response : List Nat) (i : Nat) : Bill :=
  let first := response[i * 5]!
  let countryCode := (response.drop (i * 5 + 1)).take 3
  let secondByte := response[i * 5 + 4]!
  let second : ℤ := if 0x80 < secondByte then -((secondByte - 0x80 : Nat) : ℤ) else (secondByte : ℤ)
  ⟨(first : ℚ) * (10 : ℚ) ^ second, countryCode⟩

/-- The response decoding of `GetBillTable`: `for i := 0; i < 24; i++`
appending one `Bill` per 5-byte entry.  The last access is
`response[23*5+4] = response[119]`, so a response shorter than 120 bytes
panics (`none`). -/
def decodeBillTable (response : List Nat) : Option (List Bill) :=
  if response.length < 120 then none
  else some ((List.range 24).foldl (fun bills i => bills ++ [decodeBillEntry response i]) [])

/-! ## Helper lemmas -/

theorem exists_eq_six {α : Type} (l : List α) (h : l.length = 6) :
    ∃ a b c d e f, l = [a, b, c, d, e, f] := by
  rcases l with _ | ⟨a, _ | ⟨b, _ | ⟨c, _ | ⟨d, _ | ⟨e, _ | ⟨f, _ | ⟨g, t⟩⟩⟩⟩⟩⟩⟩ <;>
      simp only [List.length_cons, List.length_nil] at h
  · omega
  · omega
  · omega
  · omega
  · omega
  · omega
  · exact ⟨a, b, c, d, e, f, rfl⟩
  · omega

/-! ## Claim theorems -/

/-- C4: for a validated response frame that is exactly 4 bytes before the
checksum, the command-echo byte decides the outcome: `0x00` gives the
successful empty (nil-payload) response, `0xFF` the device-NACK error,
`0x30` the illegal-command error. -/
theorem c4_control_echo_outcomes (buf : List Nat) (hlen : buf.length = 6)
    (h0 : buf[0]! = StartCode) (h1 : buf[1]! = PeripheralAddress)
    (hcrc : buf[4]! + 256 * buf[5]! = GetCRC16 (buf.take 4)) :
    (buf[3]! = 0x00 → parseResponse buf = .ok none) ∧
    (buf[3]! = 0xFF → parseResponse buf = .nack) ∧
    (buf[3]! = 0x30 → parseResponse buf = .illegal) := by
  obtain ⟨a, b, c, d, e, f, rfl⟩ := exists_eq_six buf hlen
  simp only [List.getElem!_cons_zero, List.getElem!_cons_succ] at h0 h1 hcrc ⊢
  subst h0; subst h1
  refine ⟨?_, ?_, ?_⟩ <;> intro hd <;> subst hd <;>
    simp_all [parseResponse, StartCode, PeripheralAddress]

/-- C4 witness: the concrete ACK frame `02 03 06 00 C2 82` satisfies the
hypotheses and parses to the successful empty response. -/
theorem c4_witness :
    ([2, 3, 6, 0, 194, 130] : List Nat).length = 6 ∧
    (194 : Nat) + 256 * 130 = GetCRC16 ([2, 3, 6, 0, 194, 130].take 4) ∧
    parseResponse [2, 3, 6, 0, 194, 130] = .ok none :=
  ⟨by decide, by decide,
    (c4_control_echo_outcomes [2, 3, 6, 0, 194, 130] (by decide) (by decide) (by decide)
      (by decide)).1 (by decide)⟩

/-- C5: response validation checks, in order, the two header bytes
(anything other than `02 03` is the format error) and then the trailing
little-endian CRC-16 over the preceding bytes (mismatch is the checksum
error); in both cases no payload is produced. -/
theorem c5_validation_order :
    (∀ buf : List Nat, 6 ≤ buf.length →
      (buf[0]! ≠ StartCode ∨ buf[1]! ≠ PeripheralAddress) →
      parseResponse buf = .formatErr) ∧
    (∀ buf : List Nat, 6 ≤ buf.length →
      buf[0]! = StartCode → buf[1]! = PeripheralAddress →
      buf[buf.length - 2]! + 256 * buf[buf.length - 1]! ≠
        GetCRC16 (buf.take (buf.length - 2)) →
      parseResponse buf = .checksumErr) := by
  constructor
  · intro buf _ h
    simp only [parseResponse, if_pos h]
  · intro buf _ h0 h1 hcrc
    rw [parseResponse, if_neg (by simp [h0, h1]), if_pos hcrc]

/-- C5 witness: a frame with a bad header is rejected as a format error,
and a well-headed frame with a bad trailing checksum as a checksum
mismatch. -/
theorem c5_witness :
    parseResponse [9, 9, 9, 9, 9, 9] = .formatErr ∧
    parseResponse [2, 3, 6, 0, 0, 0] = .checksumErr :=
  ⟨c5_validation_order.1 [9, 9, 9, 9, 9, 9] (by decide) (by decide),
    c5_validation_order.2 [2, 3, 6, 0, 0, 0] (by decide) (by decide) (by decide) (by decide)⟩

/-- C10: responses that pass frame validation — in particular the bare-ACK
control reply, which yields a nil payload — make the unconditional
fixed-offset indexing of Poll, GetStatus, Identification and GetBillTable
panic (modelled as `none`) instead of returning an error; GetBillTable
panics on any payload shorter than its 24×5-byte layout, e.g. 119 bytes. -/
theorem c10_short_payload_panics :
    parseResponse [2, 3, 0, 0, 18, 214] = .ok none ∧
    decodePoll [] = none ∧
    decodeStatus [] = none ∧
    decodeIdentification [] = none ∧
    decodeBillTable [] = none ∧
    decodeBillTable (List.replicate 119 0) = none := by
  refine ⟨by decide, by decide, by decide, by decide, by decide, ?_⟩
  simp [decodeBillTable]

/-- C1 counterexample: the valid substantive frame `02 03 07 33 AA DA 29`
(command echo `0x33`, payload byte `0xAA`) is returned to the caller as
`[0x33, 0xAA]` — the echoed command byte is the first byte of the returned
payload, not `[0xAA]` as the claim requires. -/
theorem c1_counterexample :
    parseResponse [2, 3, 7, 0x33, 0xAA, 218, 41] = .ok (some [0x33, 0xAA]) ∧
    ([0x33, 0xAA] : List Nat) ≠ [0xAA] := by decide

/-- C2 counterexample: encoding the subset `{0}` produces the mask
`[0x00, 0x00, 0x01]`, and decoding that mask yields `{7}`, not `{0}` —
the encode and decode steps are not inverses. -/
theorem c2_counterexample :
    encodeBitset [0] = some [0, 0, 1] ∧
    decodeBitset [0, 0, 1] = [7] ∧
    ([7] : List Nat) ≠ [0] := by decide

/-- C8 counterexample: the encode step applied to the out-of-range index
24 hits an out-of-range slice access (a runtime panic, modelled `none`);
there is no `InvalidIndex` error value anywhere in the code. -/
theorem c8_counterexample : encodeBitset [24] = none := by decide

/-- C9 counterexample: `GetCRC16` returns 0 for the non-empty input
`[0x00]`, so 0 is not returned only for the empty input. -/
theorem c9_counterexample :
    GetCRC16 [0] = 0 ∧ ([0] : List Nat) ≠ [] := by decide

/-- C9 amended: the checksum is a (deterministic, pure) function of the
input bytes and returns 0 for the empty input, but zero output does not
imply empty input: every all-zero sequence also maps to 0, while e.g.
`[0x01]` maps to a non-zero value. -/
theorem c9_amended_zero_inputs :
    GetCRC16 [] = 0 ∧
    (∀ n : Nat, GetCRC16 (List.replicate n 0) = 0) ∧
    GetCRC16 [1] ≠ 0 := by
  refine ⟨rfl, ?_, by decide⟩
  have hstep : crcByte 0 0 = 0 := by decide
  intro n
  induction n with
  | zero => rfl
  | succ k ih =>
      simpa [GetCRC16, List.replicate_succ, hstep] using ih

/-- C1 amended: for a validated substantive (non-control) response, the
parser strips the 3-byte header and the 2-byte checksum and returns the
rest unchanged — the command-echo byte at frame index 3 is the first byte
of the returned payload, not stripped. -/
theorem c1_amended_echo_included (buf : List Nat) (hlen : 6 ≤ buf.length)
    (h0 : buf[0]! = StartCode) (h1 : buf[1]! = PeripheralAddress)
    (hcrc : buf[buf.length - 2]! + 256 * buf[buf.length - 1]! =
      GetCRC16 (buf.take (buf.length - 2)))
    (hctl : ¬(buf.length = 6 ∧ (buf[3]! = 0x00 ∨ buf[3]! = 0xFF ∨ buf[3]! = 0x30))) :
    parseResponse buf = .ok (some ((buf.take (buf.length - 2)).drop 3)) ∧
    (buf.take (buf.length - 2)).drop 3 =
      buf[3]! :: (buf.take (buf.length - 2)).drop 4 := by
  have hbl : (buf.take (buf.length - 2)).length = buf.length - 2 := by
    simp only [List.length_take]; omega
  have h3lt : 3 < (buf.take (buf.length - 2)).length := by omega
  have hb3 : (buf.take (buf.length - 2))[3]! = buf[3]! := by
    rw [getElem!_def, getElem!_def, List.getElem?_take_of_lt (by omega)]
  have hdrop : (buf.take (buf.length - 2)).drop 3 =
      buf[3]! :: (buf.take (buf.length - 2)).drop 4 := by
    rw [List.drop_eq_getElem_cons h3lt, ← hb3,
      getElem!_pos (List.take (buf.length - 2) buf) 3 h3lt]
  refine ⟨?_, hdrop⟩
  have hc1 : ¬((buf.take (buf.length - 2)).length = 4 ∧
      (buf.take (buf.length - 2))[3]! = 0x00) := by
    rintro ⟨hl4, hx⟩; rw [hbl] at hl4; rw [hb3] at hx
    exact hctl ⟨by omega, Or.inl hx⟩
  have hc2 : ¬((buf.take (buf.length - 2)).length = 4 ∧
      (buf.take (buf.length - 2))[3]! = 0xFF) := by
    rintro ⟨hl4, hx⟩; rw [hbl] at hl4; rw [hb3] at hx
    exact hctl ⟨by omega, Or.inr (Or.inl hx)⟩
  have hc3 : ¬((buf.take (buf.length - 2)).length = 4 ∧
      (buf.take (buf.length - 2))[3]! = 0x30) := by
    rintro ⟨hl4, hx⟩; rw [hbl] at hl4; rw [hb3] at hx
    exact hctl ⟨by omega, Or.inr (Or.inr hx)⟩
  simp only [parseResponse]
  rw [if_neg (by simp [h0, h1]), if_neg (fun hC => hC hcrc),
    if_neg hc1, if_neg hc2, if_neg hc3]

/-- C1 witness: the valid 8-byte frame `02 03 08 31 01 02 FA 16`
(command echo `0x31`, payload `01 02`) satisfies the hypotheses and is
returned as `[0x31, 0x01, 0x02]` — echo byte first. -/
theorem c1_witness :
    parseResponse [2, 3, 8, 0x31, 1, 2, 250, 22] = .ok (some [0x31, 1, 2]) := by
  have h := c1_amended_echo_included [2, 3, 8, 0x31, 1, 2, 250, 22]
    (by decide) (by decide) (by decide) (by decide) (by decide)
  rw [h.1]; decide

/-- C3 counterexample: for a 250-byte payload (command `0x30`), the
emitted length byte is `byte(6 + 250) = 0`, not `6 + len(payload) = 256` —
the length byte is truncated modulo 256. -/
theorem c3_counterexample :
    (sendRequestFrame 0x30 [List.replicate 250 0])[2]! = 0 ∧
    6 + (List.replicate 250 (0 : Nat)).length = 256 ∧ (0 : Nat) ≠ 256 := by
  refine ⟨?_, by simp, by decide⟩
  decide

/-! CRC bound lemmas: the running register stays a 16-bit value. -/

theorem crcRound_lt {c : Nat} (h : c < 65536) : crcRound c < 65536 := by
  unfold crcRound
  split
  · exact Nat.xor_lt_two_pow (n := 16) (by omega) (by omega)
  · have : c >>> 1 ≤ c := by
      rw [Nat.shiftRight_eq_div_pow]; exact Nat.div_le_self c (2 ^ 1)
    omega

theorem crcRounds_lt : ∀ (j : Nat) {c : Nat}, c < 65536 → crcRounds j c < 65536
  | 0, _, h => h
  | j + 1, _, h => crcRounds_lt j (crcRound_lt h)

theorem GetCRC16_lt (bs : List Nat) (h : ∀ b ∈ bs, b < 256) : GetCRC16 bs < 65536 := by
  suffices hgen : ∀ (l : List Nat) (c : Nat), (∀ b ∈ l, b < 256) → c < 65536 →
      l.foldl crcByte c < 65536 from hgen bs 0 h (by omega)
  intro l
  induction l with
  | nil => intro c _ hc; exact hc
  | cons b t ih =>
      intro c hb hc
      simp only [List.foldl_cons]
      exact ih (crcByte c b) (fun x hx => hb x (by simp [hx]))
        (crcRounds_lt 8 (Nat.xor_lt_two_pow (n := 16) hc (by have := hb b (by simp); omega)))

/-- C3 amended: for every command code and byte payload, the request frame
is: start code `0x02`, peripheral address `0x03`, a length byte equal to
`(6 + len(payload)) mod 256` (Go's `byte(length)` truncation), the command
code, the payload, then the CRC-16 over all preceding bytes of the frame,
little-endian. -/
theorem c3_amended_frame_layout (commandCode : Nat) (payload : List Nat)
    (hcmd : commandCode < 256) (hpl : ∀ b ∈ payload, b < 256) :
    sendRequestFrame commandCode [payload] =
      [StartCode, PeripheralAddress, (6 + payload.length) % 256, commandCode] ++ payload ++
        [GetCRC16 ([StartCode, PeripheralAddress, (6 + payload.length) % 256, commandCode]
            ++ payload) % 256,
         GetCRC16 ([StartCode, PeripheralAddress, (6 + payload.length) % 256, commandCode]
            ++ payload) / 256] := by
  have hbytes : ∀ b ∈ ([StartCode, PeripheralAddress, (6 + payload.length) % 256, commandCode]
      ++ payload), b < 256 := by
    intro b hb
    rcases List.mem_append.mp hb with hh | hmem
    · simp only [StartCode, PeripheralAddress, List.mem_cons, List.not_mem_nil, or_false] at hh
      rcases hh with rfl | rfl | rfl | rfl
      · omega
      · omega
      · exact Nat.mod_lt _ (by omega)
      · exact hcmd
    · exact hpl b hmem
  have h256 : GetCRC16 (2 :: 3 :: (6 + payload.length) % 256 :: commandCode :: payload) <
      256 * 256 := by
    have := GetCRC16_lt _ hbytes
    simpa [StartCode, PeripheralAddress] using this
  simp [sendRequestFrame, writeByte, writeUint16LE, StartCode, PeripheralAddress,
    Nat.mod_eq_of_lt hcmd, Nat.mod_eq_of_lt (Nat.div_lt_of_lt_mul h256)]

/-- C3 witness: the frame for command `0x34` with payload `[1, 2, 3]` is
`02 03 09 34 01 02 03 4B 0F` (checksum `0x0F4B = 3915` little-endian). -/
theorem c3_witness :
    sendRequestFrame 0x34 [[1, 2, 3]] = [2, 3, 9, 0x34, 1, 2, 3, 75, 15] := by
  rw [c3_amended_frame_layout 0x34 [1, 2, 3] (by decide) (by decide)]
  decide

/-! Retry-loop lemmas. -/

/-- On a transport whose reads all succeed with zero bytes, the
accumulation loop started at counter value `tries` fails after exactly
`maxReadCount - tries - 1` further reads. -/
theorem readLoop_empty (reads : Nat → List Nat) (hr : ∀ k, reads k = []) :
    ∀ (d tries : Nat), tries + d + 1 = maxReadCount →
      readLoop reads tries [] = (none, d) := by
  intro d
  induction d with
  | zero =>
      intro tries ht
      rw [readLoop, if_pos (by simp only [maxReadCount] at ht ⊢; omega)]
  | succ k ih =>
      intro tries ht
      rw [readLoop, if_neg (by simp only [maxReadCount] at ht ⊢; omega)]
      simp only [hr, List.append_nil, List.nil_append, List.length_nil,
        if_pos (by omega : (0 : Nat) < 6)]
      rw [ih (tries + 1) (by omega)]

/-- C7 amended: on a transport whose reads succeed but never deliver a
byte (so a frame never completes), the loop terminates with the
retry-exhausted failure after exactly `maxReadCount - 1 = 1049` transport
reads: the counter check precedes each read, so the `maxReadCount`-th read
is never attempted. -/
theorem c7_amended_retry_count (reads : Nat → List Nat) (hr : ∀ k, reads k = []) :
    readLoop reads 0 [] = (none, maxReadCount - 1) :=
  readLoop_empty reads hr (maxReadCount - 1) 0 (by simp [maxReadCount])

/-- C7 witness: the always-empty transport exhausts the retry budget with
exactly `maxReadCount - 1` reads performed. -/
theorem c7_witness :
    readLoop (fun _ => []) 0 [] = (none, maxReadCount - 1) :=
  c7_amended_retry_count (fun _ => []) (fun _ => rfl)

/-- C7 counterexample: on the never-completing transport the loop performs
1049 reads before failing, which is not the configured maximum
`maxReadCount = 1050` — the failure fires one read early. -/
theorem c7_counterexample :
    readLoop (fun _ => []) 0 [] = (none, 1049) ∧ (1049 : Nat) ≠ maxReadCount :=
  ⟨readLoop_empty (fun _ => []) (fun _ => rfl) 1049 0 (by simp [maxReadCount]),
    by simp [maxReadCount]⟩

/-! Bitset-encode panic lemmas. -/

theorem foldl_encStep_none : ∀ L : List Nat, L.foldl encStep none = none := by
  intro L
  induction L with
  | nil => rfl
  | cons t L ih => simpa [encStep] using ih

theorem encStep_bad (bs : List Nat) (t : Nat) (hlen : bs.length = 3)
    (h24 : 23 < t) (h64 : t < 2 ^ 64) : encStep (some bs) t = none := by
  simp only [encStep]
  rw [if_neg]
  rw [hlen]
  simp only [UintMod]
  omega

theorem encStep_good_some (bs : List Nat) (t : Nat) (hlen : bs.length = 3) (ht : t ≤ 23) :
    ∃ bs', encStep (some bs) t = some bs' ∧ bs'.length = 3 := by
  simp only [encStep]
  rw [if_pos (by rw [hlen]; simp only [UintMod]; omega)]
  exact ⟨_, rfl, by simp [hlen]⟩

/-- C8 amended: for every input list containing an index outside `[0, 23]`,
the mask-building step of `SetSecurity` / `EnableBillTypes` performs an
out-of-range slice access — a runtime panic, modelled as `none` — rather
than producing a mask; the code has no `InvalidIndex` error to return. -/
theorem c8_amended_panic (ts : List Nat) (h64 : ∀ t ∈ ts, t < 2 ^ 64)
    (hbad : ∃ t ∈ ts, 23 < t) : encodeBitset ts = none := by
  suffices h : ∀ (l : List Nat) (bs : List Nat), bs.length = 3 →
      (∀ t ∈ l, t < 2 ^ 64) → (∃ t ∈ l, 23 < t) →
      l.foldl encStep (some bs) = none from h ts [0, 0, 0] rfl h64 hbad
  intro l
  induction l with
  | nil => intro bs _ _ h; simp at h
  | cons t L ih =>
      intro bs hlen h64' hbad'
      simp only [List.foldl_cons]
      by_cases hct : 23 < t
      · rw [encStep_bad bs t hlen hct (h64' t (by simp))]
        exact foldl_encStep_none L
      · obtain ⟨bs', he, hl'⟩ := encStep_good_some bs t hlen (by omega)
        rw [he]
        refine ih bs' hl' (fun u hu => h64' u (by simp [hu])) ?_
        rcases hbad' with ⟨u, hu, hu23⟩
        rcases List.mem_cons.mp hu with rfl | hmem
        · omega
        · exact ⟨u, hmem, hu23⟩

/-- C8 witness: the singleton input `[24]` satisfies the hypotheses and
makes the encode step panic. -/
theorem c8_witness :
    (∀ t ∈ ([24] : List Nat), t < 2 ^ 64) ∧ encodeBitset [24] = none :=
  ⟨by decide, c8_amended_panic [24] (by decide) ⟨24, by decide, by decide⟩⟩

/-! Bill-table lemmas. -/

theorem foldl_range_append {α : Type} (g : Nat → α) :
    ∀ (n : Nat) (acc : List α),
      (List.range n).foldl (fun l i => l ++ [g i]) acc = acc ++ (List.range n).map g := by
  intro n
  induction n with
  | zero => intro acc; simp
  | succ k ih =>
      intro acc
      rw [List.range_succ, List.foldl_append, ih]
      simp

/-- C6: on any response long enough for its fixed layout (≥ 120 bytes),
GetBillTable decodes exactly 24 five-byte entries; entry `i` has
denomination `response[5i] * 10^e` with the exponent `e` decoded from the
biased byte at offset 4 of the entry (`> 0x80` means a negative exponent),
and country code the 3 bytes at offsets 1–3; for a biased (negative)
exponent byte the denomination is `first / 10^(byte - 0x80)`, e.g.
`5 * 10^-2 = 0.05`. -/
theorem c6_bill_table_decode (response : List Nat) (hlen : 120 ≤ response.length) :
    ∃ bills, decodeBillTable response = some bills ∧ bills.length = 24 ∧
      (∀ i, i < 24 → bills[i]! =
        ⟨(response[i * 5]! : ℚ) *
            (10 : ℚ) ^ (if 0x80 < response[i * 5 + 4]! then
                -((response[i * 5 + 4]! - 0x80 : Nat) : ℤ)
              else (response[i * 5 + 4]! : ℤ)),
          (response.drop (i * 5 + 1)).take 3⟩) ∧
      (∀ i, i < 24 → 0x80 < response[i * 5 + 4]! →
        (bills[i]!).Denomination =
          (response[i * 5]! : ℚ) / 10 ^ (response[i * 5 + 4]! - 0x80 : Nat)) := by
  have hget : ∀ i, i < 24 →
      ((List.range 24).map (decodeBillEntry response))[i]! = decodeBillEntry response i := by
    intro i hi
    rw [getElem!_pos _ i (by simpa using hi)]
    simp [hi]
  refine ⟨(List.range 24).map (decodeBillEntry response), ?_, by simp, ?_, ?_⟩
  · rw [decodeBillTable, if_neg (by omega), foldl_range_append]
    simp
  · intro i hi
    rw [hget i hi]
    rfl
  · intro i hi hbig
    rw [hget i hi]
    simp only [decodeBillEntry, if_pos hbig]
    rw [zpow_neg, zpow_natCast, div_eq_mul_inv]

/-- C6 witness: a 120-byte response whose first entry is
`05 'U' 'S' 'D' 82` decodes to 24 bills whose first has denomination
`5 * 10^-2 = 0.05`. -/
theorem c6_witness :
    ((decodeBillTable ([5, 85, 83, 68, 0x82] ++ List.replicate 115 0)).getD []).length = 24 ∧
    (((decodeBillTable ([5, 85, 83, 68, 0x82] ++ List.replicate 115 0)).getD [])[0]!).Denomination
      = 5 / 100 := by
  obtain ⟨bills, hsome, hlen24, _, hneg⟩ :=
    c6_bill_table_decode ([5, 85, 83, 68, 0x82] ++ List.replicate 115 0) (by simp)
  rw [hsome]
  refine ⟨hlen24, ?_⟩
  have h0 : (([5, 85, 83, 68, 0x82] ++ List.replicate 115 0 : List Nat))[0 * 5]! = 5 := by decide
  have h4 : (([5, 85, 83, 68, 0x82] ++ List.replicate 115 0 : List Nat))[0 * 5 + 4]! = 0x82 := by
    decide
  rw [Option.getD_some, hneg 0 (by omega) (by rw [h4]; omega), h0, h4]
  norm_num

/-! Bitset encode/decode characterization lemmas. -/

theorem testBit_or_two_pow (x k i : Nat) :
    (x ||| 2 ^ k).testBit i = (x.testBit i || decide (k = i)) := by
  rw [Nat.testBit_lor, Nat.testBit_two_pow]

theorem and_one_shift (v i : Nat) : (v &&& 1 <<< i ≠ 0) ↔ v.testBit i = true := by
  rw [Nat.one_shiftLeft, Nat.and_two_pow]
  cases h : v.testBit i <;> simp [h]

/-- For an in-range index `t ≤ 23`, one mask-building step sets exactly one
bit: bit `t - 16` of byte 0 when `t ≥ 16`, bit `t - 8` of byte 1 when
`8 ≤ t < 16`, bit `t` of byte 2 when `t < 8`. -/
theorem encStep_valid (x y z t : Nat) (ht : t ≤ 23) :
    encStep (some [x, y, z]) t =
      some (if 16 ≤ t then [x ||| 2 ^ (t - 16), y, z]
        else if 8 ≤ t then [x, y ||| 2 ^ (t - 8), z]
        else [x, y, z ||| 2 ^ t]) := by
  interval_cases t <;> norm_num [encStep, UintMod, Nat.one_shiftLeft]

/-- Bit-level characterization of the mask-building fold over a list of
in-range indices: bit `i < 8` of byte `b` ends set iff it started set or
the index `16 - 8b + i` occurs in the list. -/
theorem encode_chars : ∀ (L : List Nat) (x y z : Nat), (∀ t ∈ L, t ≤ 23) →
    ∃ x' y' z', L.foldl encStep (some [x, y, z]) = some [x', y', z'] ∧
      (∀ i, i < 8 → x'.testBit i = (x.testBit i || decide ((16 + i) ∈ L))) ∧
      (∀ i, i < 8 → y'.testBit i = (y.testBit i || decide ((8 + i) ∈ L))) ∧
      (∀ i, i < 8 → z'.testBit i = (z.testBit i || decide (i ∈ L))) := by
  intro L
  induction L with
  | nil => intro x y z _; exact ⟨x, y, z, rfl, by simp, by simp, by simp⟩
  | cons t L ih =>
      intro x y z hv
      have ht : t ≤ 23 := hv t (by simp)
      rw [List.foldl_cons, encStep_valid x y z t ht]
      by_cases h16 : 16 ≤ t
      · rw [if_pos h16]
        obtain ⟨x', y', z', hfold, hx, hy, hz⟩ :=
          ih (x ||| 2 ^ (t - 16)) y z (fun u hu => hv u (by simp [hu]))
        refine ⟨x', y', z', hfold, ?_, ?_, ?_⟩
        · intro i hi
          rw [hx i hi, testBit_or_two_pow]
          have he : decide (t - 16 = i) = decide ((16 + i) = t) := by
            simp only [decide_eq_decide]; omega
          simp only [List.mem_cons, Bool.decide_or, he, Bool.or_assoc]
        · intro i hi
          rw [hy i hi]
          have : ¬((8 + i) = t) := by omega
          simp only [List.mem_cons, Bool.decide_or, decide_eq_false this, Bool.false_or]
        · intro i hi
          rw [hz i hi]
          have : ¬(i = t) := by omega
          simp only [List.mem_cons, Bool.decide_or, decide_eq_false this, Bool.false_or]
      · by_cases h8 : 8 ≤ t
        · rw [if_neg h16, if_pos h8]
          obtain ⟨x', y', z', hfold, hx, hy, hz⟩ :=
            ih x (y ||| 2 ^ (t - 8)) z (fun u hu => hv u (by simp [hu]))
          refine ⟨x', y', z', hfold, ?_, ?_, ?_⟩
          · intro i hi
            rw [hx i hi]
            have : ¬((16 + i) = t) := by omega
            simp only [List.mem_cons, Bool.decide_or, decide_eq_false this, Bool.false_or]
          · intro i hi
            rw [hy i hi, testBit_or_two_pow]
            have he : decide (t - 8 = i) = decide ((8 + i) = t) := by
              simp only [decide_eq_decide]; omega
            simp only [List.mem_cons, Bool.decide_or, he, Bool.or_assoc]
          · intro i hi
            rw [hz i hi]
            have : ¬(i = t) := by omega
            simp only [List.mem_cons, Bool.decide_or, decide_eq_false this, Bool.false_or]
        · rw [if_neg h16, if_neg h8]
          obtain ⟨x', y', z', hfold, hx, hy, hz⟩ :=
            ih x y (z ||| 2 ^ t) (fun u hu => hv u (by simp [hu]))
          refine ⟨x', y', z', hfold, ?_, ?_, ?_⟩
          · intro i hi
            rw [hx i hi]
            have : ¬((16 + i) = t) := by omega
            simp only [List.mem_cons, Bool.decide_or, decide_eq_false this, Bool.false_or]
          · intro i hi
            rw [hy i hi]
            have : ¬((8 + i) = t) := by omega
            simp only [List.mem_cons, Bool.decide_or, decide_eq_false this, Bool.false_or]
          · intro i hi
            rw [hz i hi, testBit_or_two_pow]
            have he : decide (t = i) = decide (i = t) := by
              simp only [decide_eq_decide]; omega
            simp only [List.mem_cons, Bool.decide_or, he, Bool.or_assoc]

theorem mem_decodeByteAux (v s : Nat) :
    ∀ (n : Nat) (acc : List Nat) (u : Nat),
      (u ∈ (List.range n).foldl
        (fun out i => if v &&& (1 <<< i) ≠ 0 then out ++ [s + 7 - i] else out) acc) ↔
      (u ∈ acc ∨ ∃ i, i < n ∧ v.testBit i = true ∧ u = s + 7 - i) := by
  intro n
  induction n with
  | zero => intro acc u; simp
  | succ k ih =>
      intro acc u
      rw [List.range_succ, List.foldl_append]
      simp only [List.foldl_cons, List.foldl_nil]
      by_cases hc : v &&& (1 <<< k) ≠ 0
      · have hk := (and_one_shift v k).mp hc
        rw [if_pos hc]
        simp only [List.mem_append, List.mem_singleton, ih]
        constructor
        · rintro ((h | ⟨i, hi, hb, rfl⟩) | rfl)
          · exact Or.inl h
          · exact Or.inr ⟨i, by omega, hb, rfl⟩
          · exact Or.inr ⟨k, by omega, hk, rfl⟩
        · rintro (h | ⟨i, hi, hb, rfl⟩)
          · exact Or.inl (Or.inl h)
          · by_cases hik : i = k
            · subst hik; exact Or.inr rfl
            · exact Or.inl (Or.inr ⟨i, by omega, hb, rfl⟩)
      · have hk : v.testBit k = false := by
          by_contra hcontra
          exact hc ((and_one_shift v k).mpr (by simpa using hcontra))
        rw [if_neg hc, ih]
        constructor
        · rintro (h | ⟨i, hi, hb, rfl⟩)
          · exact Or.inl h
          · exact Or.inr ⟨i, by omega, hb, rfl⟩
        · rintro (h | ⟨i, hi, hb, rfl⟩)
          · exact Or.inl h
          · by_cases hik : i = k
            · subst hik; rw [hk] at hb; cases hb
            · exact Or.inr ⟨i, by omega, hb, rfl⟩

theorem mem_decodeByte (v s : Nat) (acc : List Nat) (u : Nat) :
    u ∈ decodeByte v s acc ↔
      u ∈ acc ∨ ∃ i, i < 8 ∧ v.testBit i = true ∧ u = s + 7 - i :=
  mem_decodeByteAux v s 8 acc u

theorem mem_decodeBitset3 (v0 v1 v2 u : Nat) :
    u ∈ decodeBitset [v0, v1, v2] ↔
      ((∃ i, i < 8 ∧ v0.testBit i = true ∧ u = 23 - i) ∨
       (∃ i, i < 8 ∧ v1.testBit i = true ∧ u = 15 - i) ∨
       (∃ i, i < 8 ∧ v2.testBit i = true ∧ u = 7 - i)) := by
  have hunf : decodeBitset [v0, v1, v2] =
      decodeByte v2 0 (decodeByte v1 8 (decodeByte v0 16 [])) := by
    rfl
  rw [hunf, mem_decodeByte, mem_decodeByte, mem_decodeByte]
  have e0 : ∀ i : Nat, 16 + 7 - i = 23 - i := fun i => by omega
  have e1 : ∀ i : Nat, 8 + 7 - i = 15 - i := fun i => by omega
  have e2 : ∀ i : Nat, 0 + 7 - i = 7 - i := fun i => by omega
  simp only [List.not_mem_nil, false_or, e0, e1, e2]
  exact or_assoc

/-- C2 amended: the decode step applied to the encode step's mask does not
return the original subset of `[0, 23]`; instead it returns its image
under the within-byte-group bit reflection `t ↦ 8⌊t/8⌋ + (7 - t mod 8)`:
`u` is decoded from `encode(S)` iff `8⌊u/8⌋ + (7 - u mod 8) ∈ S`. -/
theorem c2_amended_reflection (S : List Nat) (hS : ∀ t ∈ S, t ≤ 23) (u : Nat) :
    (u ∈ decodeBitset ((encodeBitset S).getD [0, 0, 0])) ↔
      (8 * (u / 8) + (7 - u % 8)) ∈ S := by
  obtain ⟨x', y', z', hfold, hx, hy, hz⟩ := encode_chars S 0 0 0 hS
  have hgd : (encodeBitset S).getD [0, 0, 0] = [x', y', z'] := by
    rw [encodeBitset, hfold]; rfl
  rw [hgd, mem_decodeBitset3]
  constructor
  · rintro (⟨i, hi, hb, rfl⟩ | ⟨i, hi, hb, rfl⟩ | ⟨i, hi, hb, rfl⟩)
    · rw [hx i hi, Nat.zero_testBit, Bool.false_or, decide_eq_true_eq] at hb
      have he : 8 * ((23 - i) / 8) + (7 - (23 - i) % 8) = 16 + i := by omega
      rw [he]; exact hb
    · rw [hy i hi, Nat.zero_testBit, Bool.false_or, decide_eq_true_eq] at hb
      have he : 8 * ((15 - i) / 8) + (7 - (15 - i) % 8) = 8 + i := by omega
      rw [he]; exact hb
    · rw [hz i hi, Nat.zero_testBit, Bool.false_or, decide_eq_true_eq] at hb
      have he : 8 * ((7 - i) / 8) + (7 - (7 - i) % 8) = i := by omega
      rw [he]; exact hb
  · intro hmem
    have hle : 8 * (u / 8) + (7 - u % 8) ≤ 23 := hS _ hmem
    have hu : u ≤ 23 := by omega
    by_cases h16 : 16 ≤ u
    · refine Or.inl ⟨23 - u, by omega, ?_, by omega⟩
      rw [hx (23 - u) (by omega), Nat.zero_testBit, Bool.false_or, decide_eq_true_eq]
      have he : 16 + (23 - u) = 8 * (u / 8) + (7 - u % 8) := by omega
      rw [he]; exact hmem
    · by_cases h8 : 8 ≤ u
      · refine Or.inr (Or.inl ⟨15 - u, by omega, ?_, by omega⟩)
        rw [hy (15 - u) (by omega), Nat.zero_testBit, Bool.false_or, decide_eq_true_eq]
        have he : 8 + (15 - u) = 8 * (u / 8) + (7 - u % 8) := by omega
        rw [he]; exact hmem
      · refine Or.inr (Or.inr ⟨7 - u, by omega, ?_, by omega⟩)
        rw [hz (7 - u) (by omega), Nat.zero_testBit, Bool.false_or, decide_eq_true_eq]
        have he : 7 - u = 8 * (u / 8) + (7 - u % 8) := by omega
        rw [he]; exact hmem

/-- C2 witness: for the subset `{5}` (all elements ≤ 23) and candidate
index 2, decoding the encoded mask contains 2 iff the reflection
`8⌊2/8⌋ + (7 - 2 mod 8) = 5` is in the subset. -/
theorem c2_witness :
    (∀ t ∈ ([5] : List Nat), t ≤ 23) ∧
    ((2 ∈ decodeBitset ((encodeBitset [5]).getD [0, 0, 0])) ↔
      (8 * (2 / 8) + (7 - 2 % 8)) ∈ ([5] : List Nat)) :=
  ⟨by decide, c2_amended_reflection [5] (by decide) 2⟩

end CCValidator


